import Mathlib

/-!
# gofe: the SSH file explorer (`fe/ssh_fileexplorer.go`)

A shallow embedding of the remote-filesystem client of `gofe` and of the parts
of the Go standard library it calls (`strings.HasPrefix`, `strings.Index`,
`strings.Split`, `strings.Fields`), followed by the properties of the
directory-listing parser, of path normalisation and of the command wrappers.

Go strings are byte sequences, so a string is a list of bytes here; a Go
run-time panic (index or slice out of range) is the result `none`.
-/

set_option maxRecDepth 1000000

namespace Gofe

/-! ## Go strings -/

/-- A Go `string`: an immutable sequence of bytes. -/
abbrev GoString := List UInt8

/-- The bytes (UTF-8) of a string literal of the source. -/
def str (s : String) : GoString := s.toUTF8.data.toList

/-- Go `strings.HasPrefix(s, prefix)`:
`len(s) >= len(prefix) && s[0:len(prefix)] == prefix`. -/
def HasPrefix (s pfx : GoString) : Bool :=
  decide (pfx.length ≤ s.length) && s.take pfx.length == pfx

/-- Go `strings.Index(s, substr)`: the index of the first instance of `substr`
in `s`, or `-1` if `substr` is not present in `s`. -/
def Index : GoString → GoString → Int
  | [], substr => if substr.isEmpty then 0 else -1
  | c :: cs, substr =>
    if HasPrefix (c :: cs) substr then 0
    else
      let r := Index cs substr
      if r < 0 then -1 else r + 1

/-- The Go slice expression `s[i:]`; it panics (`none`) unless `0 ≤ i ≤ len(s)`. -/
def sliceFrom (s : GoString) (i : Int) : Option GoString :=
  if 0 ≤ i ∧ i ≤ (s.length : Int) then some (s.drop i.toNat) else none

/-- The Go slice expression `s[a:b]` for indices in range. -/
def slice (s : GoString) (a b : Nat) : GoString := (s.drop a).take (b - a)

/-- The loop of Go `strings.genSplit` for a non-empty separator: cut at the
first instance of `sep`, continue after it, and end with the remainder when no
instance is left. `fuel` bounds the number of cuts. -/
def splitLoop (sep : GoString) : Nat → GoString → List GoString
  | 0, s => [s]
  | fuel + 1, s =>
    let m := Index s sep
    if m < 0 then [s]
    else s.take m.toNat :: splitLoop sep fuel (s.drop (m.toNat + sep.length))

/-- Go `strings.Split(s, sep)` for a non-empty `sep`. The source loop runs
`strings.Count(s, sep)` times, which is at most `len(s)`. -/
def Split (s sep : GoString) : List GoString := splitLoop sep s.length s

/-- Go `strings.Join(elems, sep)`. -/
def Join : List GoString → GoString → GoString
  | [], _ => []
  | [a], _ => a
  | a :: b :: rest, sep => a ++ sep ++ Join (b :: rest) sep

/-! ### Runes and white space -/

/-- Go `utf8.RuneError`, the replacement character U+FFFD. -/
def RuneError : Nat := 0xFFFD

/-- Go `utf8.DecodeRuneInString(s)`: the first rune of `s` and its width in
bytes; an invalid or truncated encoding gives `(RuneError, 1)`, the empty
string `(RuneError, 0)`. The acceptable range of the second byte depends on the
first one (no overlong forms, no surrogates, nothing above U+10FFFF). -/
def DecodeRuneInString (s : GoString) : Nat × Nat :=
  match s with
  | [] => (RuneError, 0)
  | s0 :: rest =>
    let b0 := s0.toNat
    if b0 < 0x80 then (b0, 1)
    else if b0 < 0xC2 ∨ 0xF4 < b0 then (RuneError, 1)
    else
      let sz := if b0 < 0xE0 then 2 else if b0 < 0xF0 then 3 else 4
      let lo := if b0 = 0xE0 then 0xA0 else if b0 = 0xF0 then 0x90 else 0x80
      let hi := if b0 = 0xED then 0x9F else if b0 = 0xF4 then 0x8F else 0xBF
      if s.length < sz then (RuneError, 1)
      else
        let b1 := (rest.getD 0 0).toNat
        if b1 < lo ∨ hi < b1 then (RuneError, 1)
        else if sz ≤ 2 then ((b0 &&& 0x1F) <<< 6 ||| (b1 &&& 0x3F), 2)
        else
          let b2 := (rest.getD 1 0).toNat
          if b2 < 0x80 ∨ 0xBF < b2 then (RuneError, 1)
          else if sz ≤ 3 then
            ((b0 &&& 0x0F) <<< 12 ||| (b1 &&& 0x3F) <<< 6 ||| (b2 &&& 0x3F), 3)
          else
            let b3 := (rest.getD 2 0).toNat
            if b3 < 0x80 ∨ 0xBF < b3 then (RuneError, 1)
            else
              ((b0 &&& 0x07) <<< 18 ||| (b1 &&& 0x3F) <<< 12 ||| (b2 &&& 0x3F) <<< 6
                ||| (b3 &&& 0x3F), 4)

/-- Go `unicode.IsSpace(r)`: the Latin-1 spaces `\t \n \v \f \r`, space,
U+0085, U+00A0, and beyond Latin-1 the code points with the White_Space
property. -/
def IsSpace (r : Nat) : Bool :=
  (0x09 ≤ r && r ≤ 0x0D) || r == 0x20 || r == 0x85 || r == 0xA0 || r == 0x1680
    || (0x2000 ≤ r && r ≤ 0x200A) || r == 0x2028 || r == 0x2029 || r == 0x202F
    || r == 0x205F || r == 0x3000

/-- The table `asciiSpace` of Go `strings`: `\t \n \v \f \r` and space. -/
def asciiSpace (b : UInt8) : Bool :=
  b == 0x09 || b == 0x0A || b == 0x0B || b == 0x0C || b == 0x0D || b == 0x20

/-- The field-cutting loop shared by `strings.Fields` and `strings.FieldsFunc`.
`rest` is `s[i:]`; `dec` tells, for the text at a position, whether the rune
there is a separator and how many bytes it takes; `skip` counts the bytes of
the current rune still to be passed; `fieldStart` is the start of the field
being read, or `-1` between fields. A field is emitted as `s[fieldStart:i]`
when a separator is met, and as `s[fieldStart:]` at the end of the string. -/
def fieldsLoop (dec : GoString → Bool × Nat) (s : GoString) :
    GoString → Nat → Nat → Int → List GoString
  | [], _, _, fieldStart =>
    if fieldStart ≥ 0 then [slice s fieldStart.toNat s.length] else []
  | _ :: rest, i, skip + 1, fieldStart => fieldsLoop dec s rest (i + 1) skip fieldStart
  | b :: rest, i, 0, fieldStart =>
    let d := dec (b :: rest)
    if d.1 then
      if fieldStart ≥ 0 then
        slice s fieldStart.toNat i :: fieldsLoop dec s rest (i + 1) (d.2 - 1) (-1)
      else fieldsLoop dec s rest (i + 1) (d.2 - 1) fieldStart
    else if fieldStart = -1 then fieldsLoop dec s rest (i + 1) (d.2 - 1) i
    else fieldsLoop dec s rest (i + 1) (d.2 - 1) fieldStart

/-- Go `strings.FieldsFunc(s, f)`: the maximal runs of runes not satisfying
`f`, the runes being decoded with `DecodeRuneInString`. -/
def FieldsFunc (s : GoString) (f : Nat → Bool) : List GoString :=
  fieldsLoop (fun t => (f (DecodeRuneInString t).1, (DecodeRuneInString t).2)) s s 0 0 (-1)

/-- Go `strings.Fields(s)`: split around runs of white space. A string with
ASCII bytes only takes the byte loop over the table `asciiSpace`; any other
string goes to `FieldsFunc(s, unicode.IsSpace)`. -/
def Fields (s : GoString) : List GoString :=
  if s.all (fun b => b < 0x80) then
    fieldsLoop (fun t => (asciiSpace (t.headD 0), 1)) s s 0 0 (-1)
  else FieldsFunc s IsSpace

/-! ## The directory-listing parser -/

/-- Modelled from the spec: the record `models.ListDirEntry`, whose declaration
(package `models`) is not among the sources. The spec's Directory Entry has a
name, a permission string, a size, a modification time and a kind; the fields
stand in the order of the positional literal of five strings in
`parseLsOutput`. -/
structure ListDirEntry where
  name : GoString
  rights : GoString
  size : GoString
  date : GoString
  type : GoString
  deriving DecidableEq, Repr

/-- The loop of `parseLsOutput` over the lines, `results` being the slice
built so far. A panic of the body (`tokens[k]` or `line[i:]` out of range) is
`none`. -/
def parseLoop : List GoString → List ListDirEntry → Option (List ListDirEntry)
  | [], results => some results
  | line :: rest, results =>
    if line.length ≠ 0 && !HasPrefix line (str "total") then
      let tokens := Fields line
      if tokens.length ≥ 8 then do
        let t0 ← tokens[0]?
        let ftype := if HasPrefix t0 (str "d") then str "dir" else str "file"
        let i := Index line (← tokens[7]?)
        let name ← sliceFrom line i
        parseLoop rest (results ++
          [⟨name, t0, ← tokens[4]?, (← tokens[5]?) ++ str " " ++ (← tokens[6]?) ++ str ":00",
            ftype⟩])
      else parseLoop rest results
    else parseLoop rest results

/-- The function `parseLsOutput` of `fe/ssh_fileexplorer.go`. -/
def parseLsOutput (lsout : GoString) : Option (List ListDirEntry) :=
  parseLoop (Split lsout (str "\n")) []

/-- A line that yields an entry: it is not empty, does not begin with `total`
and has at least 8 white-space separated columns (the two guards of the loop
body of `parseLsOutput`). -/
def wellFormed (line : GoString) : Bool :=
  (line.length ≠ 0 && !HasPrefix line (str "total")) && decide (8 ≤ (Fields line).length)

/-- The well-formed lines of a listing, in listing order. -/
def wellFormedLines (lsout : GoString) : List GoString :=
  (Split lsout (str "\n")).filter wellFormed

/-- Column `k` of a line: `strings.Fields(line)[k]`, empty when there is no
such column. -/
def column (line : GoString) (k : Nat) : GoString := (Fields line).getD k []

/-- The record that the loop body of `parseLsOutput` appends for a line that
passed both guards, read off the positional literal
`{line[i:], tokens[0], tokens[4], tokens[5] + " " + tokens[6] + ":00", ftype}`
with `i = strings.Index(line, tokens[7])`. -/
def lineEntry (line : GoString) : ListDirEntry :=
  ⟨line.drop (Index line (column line 7)).toNat, column line 0, column line 4,
    column line 5 ++ str " " ++ column line 6 ++ str ":00",
    if HasPrefix (column line 0) (str "d") then str "dir" else str "file"⟩

/-- The pieces of `s` between the occurrences of the byte `c`, by recursion on
the text: what `strings.Split` computes for a one-byte separator. -/
def linesOf (c : UInt8) : GoString → List GoString
  | [] => [[]]
  | x :: xs =>
    if x = c then [] :: linesOf c xs
    else
      match linesOf c xs with
      | [] => [[x]]
      | l :: ls => (x :: l) :: ls

/-! ## The client -/

/-- The function `normalizePath` of `fe/ssh_fileexplorer.go`. -/
def normalizePath (path : GoString) : GoString :=
  if !HasPrefix path (str "/") then str "/" ++ path
  else str "'" ++ path ++ str "'"

/-- A Go `error` value; `none` is `nil`. -/
abbrev GoError := Option String

/-- A request sent to the remote host: a command given to
`session.CombinedOutput`, or a file opened, created or written through the
SFTP client. -/
inductive Request where
  | exec (cmd : GoString)
  | sftpOpen (path : GoString)
  | sftpCreate (path : GoString)
  | sftpWrite (path data : GoString)
  deriving DecidableEq, Repr

/-- The outcomes of the calls the client makes outside the program: opening an
SSH session, running a command in it, opening the SFTP client, opening and
creating a remote file, and the steps on the local staging file. -/
structure World where
  newSession : GoError
  combinedOutput : GoString → GoString × GoError
  sftpNewClient : GoError
  sftpOpen : GoString → GoString × GoError
  sftpCreate : GoString → GoError
  tempFile : GoError
  tmpWrite : GoError
  tmpClose : GoError
  osOpen : GoError
  ioCopy : GoError
  ioutilReadFile : GoError

/-- A world in which every call succeeds except, possibly, the remote
commands: the command `cmd` gives `run cmd`. -/
def World.running (run : GoString → GoString × GoError) : World :=
  ⟨none, run, none, fun _ => ([], none), fun _ => none, none, none, none, none, none, none⟩

/-- A world in which every call succeeds and a remote command prints nothing. -/
def World.ok : World := World.running (fun _ => ([], none))

/-- A world in which sessions open and every remote command fails with the
error `e`, printing `out`. -/
def World.failing (out : GoString) (e : String) : World :=
  World.running (fun _ => (out, some e))

/-- The method `Exec`: the combined output and the error of the command, with
the requests sent. -/
def Exec (w : World) (cmd : GoString) : (GoString × GoError) × List Request :=
  let err := w.newSession
  if err ≠ none then (([], err), [])
  else (w.combinedOutput cmd, [Request.exec cmd])

/-- The method `ExecOnly`: when the command fails (`err1 != nil`) the value
returned is `err`, the error of `NewSession`. -/
def ExecOnly (w : World) (cmd : GoString) : GoError × List Request :=
  let err := w.newSession
  if err ≠ none then (err, [])
  else
    let err1 := (w.combinedOutput cmd).2
    if err1 ≠ none then (err, [Request.exec cmd])
    else (none, [Request.exec cmd])

/-- The method `Mkdir`. -/
def Mkdir (w : World) (path name : GoString) : GoError × List Request :=
  ExecOnly w (str "mkdir -p " ++ normalizePath path ++ str "/" ++ name)

/-- The method `ListDir`; the entries are `none` when `parseLsOutput` panics. -/
def ListDir (w : World) (path : GoString) :
    (Option (List ListDirEntry) × GoError) × List Request :=
  let r := Exec w (str "ls --time-style=long-iso -l " ++ normalizePath path)
  if r.1.2 ≠ none then ((some [], r.1.2), r.2)
  else ((parseLsOutput r.1.1, none), r.2)

/-- The method `Move`. -/
def Move (w : World) (path newPath : GoString) : GoError × List Request :=
  ExecOnly w (str "mv " ++ normalizePath path ++ str " " ++ normalizePath newPath)

/-- The method `Copy`. -/
def Copy (w : World) (path newPath : GoString) : GoError × List Request :=
  ExecOnly w (str "cp -r " ++ normalizePath path ++ str " " ++ normalizePath newPath)

/-- The method `Delete`. -/
def Delete (w : World) (path : GoString) : GoError × List Request :=
  ExecOnly w (str "rm -r " ++ normalizePath path)

/-- The method `Chmod`; the parameter `perms` is not used by the body. -/
def Chmod (w : World) (path _perms permsCode : GoString) (recusive : Bool) :
    GoError × List Request :=
  if !recusive then ExecOnly w (str "chmod " ++ permsCode ++ str " " ++ normalizePath path)
  else ExecOnly w (str "chmod -r " ++ permsCode ++ str " " ++ normalizePath path)

/-- The method `ReadFile`: the bytes read and the error, with the requests
sent. The remote file is opened with `c.Open(path)`. -/
def ReadFile (w : World) (path : GoString) : (GoString × GoError) × List Request :=
  if w.sftpNewClient ≠ none then (([], w.sftpNewClient), [])
  else
    let r := w.sftpOpen path
    if r.2 ≠ none then (([], r.2), [Request.sftpOpen path])
    else if w.tempFile ≠ none then (([], w.tempFile), [Request.sftpOpen path])
    else if w.ioCopy ≠ none then (([], w.ioCopy), [Request.sftpOpen path])
    else if w.ioutilReadFile ≠ none then (([], w.ioutilReadFile), [Request.sftpOpen path])
    else ((r.1, none), [Request.sftpOpen path])

/-- The method `Save`: the error, with the requests sent. The remote file is
created with `c.Create(path)`. -/
def Save (w : World) (path data : GoString) : GoError × List Request :=
  if w.tempFile ≠ none then (w.tempFile, [])
  else if w.tmpWrite ≠ none then (w.tmpWrite, [])
  else if w.tmpClose ≠ none then (w.tmpClose, [])
  else if w.osOpen ≠ none then (w.osOpen, [])
  else if w.sftpNewClient ≠ none then (w.sftpNewClient, [])
  else if w.sftpCreate path ≠ none then (w.sftpCreate path, [Request.sftpCreate path])
  else if w.ioCopy ≠ none then
    (w.ioCopy, [Request.sftpCreate path, Request.sftpWrite path data])
  else (none, [Request.sftpCreate path, Request.sftpWrite path data])

/-! ## Facts about the library functions -/

theorem HasPrefix_iff (s p : GoString) : HasPrefix s p = true ↔ p <+: s := by
  unfold HasPrefix
  rw [List.prefix_iff_eq_take]
  constructor
  · intro h
    simp only [Bool.and_eq_true, decide_eq_true_eq, beq_iff_eq] at h
    exact h.2.symm
  · intro h
    have hl : p.length ≤ s.length := by
      have := congrArg List.length h
      simp only [List.length_take] at this
      omega
    simp only [Bool.and_eq_true, decide_eq_true_eq, beq_iff_eq]
    exact ⟨hl, h.symm⟩

theorem HasPrefix_nil (p : GoString) : HasPrefix [] p = true ↔ p = [] := by
  rw [HasPrefix_iff]; exact List.prefix_nil

/-- `Index` either fails, and then no position of `s` starts an instance of
`sub`, or gives the least position that starts one. -/
theorem Index_cases (s sub : GoString) :
    (Index s sub = -1 ∧ ∀ j, j ≤ s.length → HasPrefix (s.drop j) sub = false) ∨
    (∃ i : Nat, Index s sub = (i : Int) ∧ i ≤ s.length ∧ HasPrefix (s.drop i) sub = true ∧
      ∀ j, j < i → HasPrefix (s.drop j) sub = false) := by
  induction s with
  | nil =>
    by_cases h : sub = []
    · right
      refine ⟨0, ?_, le_refl _, ?_, ?_⟩
      · simp [Index, h]
      · simp [h, HasPrefix]
      · intro j hj; omega
    · left
      refine ⟨?_, ?_⟩
      · simp [Index, h]
      · intro j _
        cases hp : HasPrefix (List.drop j ([] : GoString)) sub with
        | false => rfl
        | true =>
          rw [List.drop_nil, HasPrefix_nil] at hp
          exact absurd hp h
  | cons c cs ih =>
    by_cases h0 : HasPrefix (c :: cs) sub = true
    · right
      refine ⟨0, ?_, Nat.zero_le _, ?_, ?_⟩
      · simp [Index, h0]
      · simpa using h0
      · intro j hj; omega
    · have h0f : HasPrefix (c :: cs) sub = false := by simpa using h0
      rcases ih with ⟨hm, hall⟩ | ⟨i, hi, hle, hp, hmin⟩
      · left
        refine ⟨?_, ?_⟩
        · simp [Index, h0f, hm]
        · intro j hj
          cases j with
          | zero => simpa using h0f
          | succ k =>
            simp only [List.drop_succ_cons]
            exact hall k (by simpa using hj)
      · right
        refine ⟨i + 1, ?_, ?_, ?_, ?_⟩
        · simp only [Index, h0f, hi]
          have : ¬ ((i : Int) < 0) := by omega
          simp [this]
        · simpa using hle
        · simpa using hp
        · intro j hj
          cases j with
          | zero => simpa using h0f
          | succ k =>
            simp only [List.drop_succ_cons]
            exact hmin k (by omega)

/-- A string that occurs in `s` is found by `Index`. -/
theorem Index_finds (s sub : GoString) (h : sub <:+: s) :
    ∃ i : Nat, Index s sub = (i : Int) ∧ i ≤ s.length ∧ HasPrefix (s.drop i) sub = true ∧
      ∀ j, j < i → HasPrefix (s.drop j) sub = false := by
  rcases Index_cases s sub with ⟨_, hall⟩ | hfound
  · exfalso
    obtain ⟨a, b, hab⟩ := h
    have hp : HasPrefix (s.drop a.length) sub = true := by
      rw [HasPrefix_iff, ← hab]
      simp [List.append_assoc]
    have hl : a.length ≤ s.length := by
      rw [← hab]; simp
    rw [hall a.length hl] at hp
    exact Bool.noConfusion hp
  · exact hfound

theorem sliceFrom_natCast (s : GoString) (i : Nat) (h : i ≤ s.length) :
    sliceFrom s (i : Int) = some (s.drop i) := by
  unfold sliceFrom
  have : (0 : Int) ≤ (i : Int) ∧ (i : Int) ≤ (s.length : Int) := ⟨by omega, by omega⟩
  simp [this]

theorem slice_within (s : GoString) (a b : Nat) : slice s a b <:+: s :=
  (List.take_prefix _ _).isInfix.trans (List.drop_suffix _ _).isInfix

theorem fieldsLoop_within (dec : GoString → Bool × Nat) (s : GoString) :
    ∀ (rest : GoString) (i skip : Nat) (fieldStart : Int),
      ∀ t ∈ fieldsLoop dec s rest i skip fieldStart, t <:+: s := by
  intro rest
  induction rest with
  | nil =>
    intro i skip fieldStart t ht
    unfold fieldsLoop at ht
    split at ht
    · simp only [List.mem_singleton] at ht
      rw [ht]; exact slice_within _ _ _
    · simp at ht
  | cons b rest ih =>
    intro i skip fieldStart t ht
    cases skip with
    | succ k =>
      rw [fieldsLoop] at ht
      exact ih _ _ _ t ht
    | zero =>
      rw [fieldsLoop] at ht
      split at ht
      · split at ht
        · rcases List.mem_cons.1 ht with h | h
          · rw [h]; exact slice_within _ _ _
          · exact ih _ _ _ t h
        · exact ih _ _ _ t ht
      · split at ht
        · exact ih _ _ _ t ht
        · exact ih _ _ _ t ht

/-- Every field of a line is a contiguous part of the line. -/
theorem Fields_within (s t : GoString) (h : t ∈ Fields s) : t <:+: s := by
  unfold Fields at h
  split at h
  · exact fieldsLoop_within _ _ _ _ _ _ t h
  · exact fieldsLoop_within _ _ _ _ _ _ t h

/-! ### Splitting at a one-byte separator -/

theorem HasPrefix_singleton (x c : UInt8) (xs : GoString) :
    HasPrefix (x :: xs) [c] = true ↔ x = c := by
  rw [HasPrefix_iff]
  constructor
  · intro h
    obtain ⟨t, ht⟩ := h
    simp only [List.singleton_append, List.cons.injEq] at ht
    exact ht.1.symm
  · intro h
    exact ⟨xs, by simp [h]⟩

theorem Index_singleton_nil (c : UInt8) : Index [] [c] = -1 := by
  simp [Index]

theorem Index_singleton_cons (x c : UInt8) (xs : GoString) :
    Index (x :: xs) [c] =
      if x = c then 0 else if Index xs [c] < 0 then -1 else Index xs [c] + 1 := by
  by_cases h : x = c
  · subst h
    have hp := (HasPrefix_singleton x x xs).2 rfl
    simp [Index, hp]
  · have hp : HasPrefix (x :: xs) [c] = false := by
      cases hq : HasPrefix (x :: xs) [c] with
      | false => rfl
      | true => exact absurd ((HasPrefix_singleton x c xs).1 hq) h
    simp [Index, hp, h]

theorem linesOf_ne_nil (c : UInt8) (s : GoString) : linesOf c s ≠ [] := by
  cases s with
  | nil => simp [linesOf]
  | cons x xs =>
    unfold linesOf
    split
    · simp
    · split <;> simp

/-- The pieces of `linesOf` described with `Index`: the whole text when the
separator is absent, else the text before its first occurrence followed by the
pieces of the text after it. -/
theorem linesOf_Index (c : UInt8) (s : GoString) :
    (Index s [c] < 0 → linesOf c s = [s]) ∧
    (∀ m : Nat, Index s [c] = (m : Int) →
      linesOf c s = s.take m :: linesOf c (s.drop (m + 1))) := by
  induction s with
  | nil =>
    refine ⟨fun _ => by simp [linesOf], ?_⟩
    intro m hm
    rw [Index_singleton_nil] at hm
    omega
  | cons x xs ih =>
    rw [Index_singleton_cons]
    by_cases h : x = c
    · simp only [h, if_true]
      refine ⟨fun hlt => by omega, ?_⟩
      intro m hm
      have : m = 0 := by omega
      subst this
      simp [linesOf]
    · simp only [h, if_false]
      by_cases hneg : Index xs [c] < 0
      · simp only [hneg, if_true]
        refine ⟨fun _ => ?_, fun m hm => by omega⟩
        simp [linesOf, h, ih.1 hneg]
      · simp only [hneg, if_false]
        refine ⟨fun hlt => by omega, ?_⟩
        intro m hm
        obtain ⟨k, hk⟩ : ∃ k : Nat, Index xs [c] = (k : Int) :=
          ⟨(Index xs [c]).toNat, by omega⟩
        have hmk : m = k + 1 := by omega
        subst hmk
        have := ih.2 k hk
        simp [linesOf, h, this]

theorem splitLoop_eq_linesOf (c : UInt8) :
    ∀ (fuel : Nat) (s : GoString), s.length ≤ fuel → splitLoop [c] fuel s = linesOf c s := by
  intro fuel
  induction fuel with
  | zero =>
    intro s hs
    have : s = [] := List.length_eq_zero.1 (by omega)
    subst this
    simp [splitLoop, linesOf]
  | succ n ih =>
    intro s hs
    unfold splitLoop
    by_cases hneg : Index s [c] < 0
    · simp only [hneg, if_true]
      exact ((linesOf_Index c s).1 hneg).symm
    · simp only [hneg, if_false]
      obtain ⟨k, hk⟩ : ∃ k : Nat, Index s [c] = (k : Int) := ⟨(Index s [c]).toNat, by omega⟩
      rw [(linesOf_Index c s).2 k hk, hk]
      simp only [Int.toNat_ofNat, List.length_singleton]
      rw [ih (s.drop (k + 1)) (by simp; omega)]

theorem Split_eq_linesOf (c : UInt8) (s : GoString) : Split s [c] = linesOf c s :=
  splitLoop_eq_linesOf c s.length s (le_refl _)

theorem not_mem_of_mem_linesOf (c : UInt8) :
    ∀ (s l : GoString), l ∈ linesOf c s → c ∉ l := by
  intro s
  induction s with
  | nil =>
    intro l hl
    simp only [linesOf, List.mem_singleton] at hl
    simp [hl]
  | cons x xs ih =>
    intro l hl
    unfold linesOf at hl
    split at hl
    · rcases List.mem_cons.1 hl with h | h
      · simp [h]
      · exact ih l h
    · rename_i hx
      split at hl
      · rename_i hnil
        exact absurd hnil (linesOf_ne_nil c xs)
      · rename_i l0 ls heq
        rcases List.mem_cons.1 hl with h | h
        · have h0 : c ∉ l0 := ih l0 (by rw [heq]; exact List.mem_cons_self _ _)
          rw [h]
          intro hc
          rcases List.mem_cons.1 hc with h1 | h1
          · exact hx h1.symm
          · exact h0 h1
        · exact ih l (by rw [heq]; exact List.mem_cons_of_mem _ h)

theorem linesOf_of_not_mem (c : UInt8) : ∀ (s : GoString), c ∉ s → linesOf c s = [s] := by
  intro s
  induction s with
  | nil => intro _; simp [linesOf]
  | cons x xs ih =>
    intro h
    have hx : x ≠ c := fun e => h (by simp [e])
    have hxs : c ∉ xs := fun e => h (List.mem_cons_of_mem _ e)
    simp [linesOf, hx, ih hxs]

theorem linesOf_append_sep (c : UInt8) (b : GoString) :
    ∀ (a : GoString), c ∉ a → linesOf c (a ++ c :: b) = a :: linesOf c b := by
  intro a
  induction a with
  | nil => intro _; simp [linesOf]
  | cons x xs ih =>
    intro h
    have hx : x ≠ c := fun e => h (by simp [e])
    have hxs : c ∉ xs := fun e => h (List.mem_cons_of_mem _ e)
    simp [linesOf, hx, ih hxs]

/-- Splitting the join of separator-free lines gives the lines back. -/
theorem linesOf_Join (c : UInt8) :
    ∀ (ls : List GoString), ls ≠ [] → (∀ l ∈ ls, c ∉ l) → linesOf c (Join ls [c]) = ls := by
  intro ls
  induction ls with
  | nil => intro h; exact absurd rfl h
  | cons a rest ih =>
    intro _ hall
    cases rest with
    | nil =>
      simp only [Join]
      exact linesOf_of_not_mem c a (hall a (List.mem_cons_self _ _))
    | cons b rest2 =>
      have ha : c ∉ a := hall a (List.mem_cons_self _ _)
      have hrest := ih (by simp) (fun l hl => hall l (List.mem_cons_of_mem _ hl))
      simp only [Join, List.append_assoc, List.singleton_append]
      rw [linesOf_append_sep c _ a ha, hrest]

theorem str_newline : str "\n" = [0x0A] := by decide

/-! ### The loop of the parser -/

theorem getElem?_of_lt_length (tokens : List GoString) (k : Nat) (h : k < tokens.length) :
    tokens[k]? = some (tokens.getD k []) := by
  simp [List.getD, List.getElem?_eq_getElem h]

theorem column_within (line : GoString) (k : Nat) (h : k < (Fields line).length) :
    column line k <:+: line := by
  apply Fields_within
  unfold column
  rw [List.getD_eq_getElem _ _ h]
  exact List.getElem_mem _

/-- The loop never panics: it appends, for each well-formed line in turn, the
record of that line. -/
theorem parseLoop_eq (lines : List GoString) :
    ∀ results, parseLoop lines results =
      some (results ++ (lines.filter wellFormed).map lineEntry) := by
  induction lines with
  | nil => intro results; simp [parseLoop]
  | cons line rest ih =>
    intro results
    unfold parseLoop
    by_cases hg : (line.length ≠ 0 && !HasPrefix line (str "total")) = true
    · by_cases hn : 8 ≤ (Fields line).length
      · have hwf : wellFormed line = true := by
          unfold wellFormed; rw [hg]; simpa using hn
        obtain ⟨i, hi, hle, _, _⟩ :=
          Index_finds line (column line 7) (column_within line 7 (by omega))
        have h7 : Index line ((Fields line).getD 7 []) = (i : Int) := hi
        rw [if_pos hg]
        simp only [ge_iff_le, hn, if_true]
        rw [getElem?_of_lt_length _ 0 (by omega), getElem?_of_lt_length _ 7 (by omega),
          getElem?_of_lt_length _ 4 (by omega), getElem?_of_lt_length _ 5 (by omega),
          getElem?_of_lt_length _ 6 (by omega)]
        simp only [Option.pure_def, Option.bind_eq_bind, Option.some_bind, h7,
          sliceFrom_natCast line i hle]
        rw [ih]
        simp only [List.filter_cons, hwf, if_true, List.map_cons, lineEntry, column, h7,
          Int.toNat_ofNat, List.append_assoc, List.singleton_append]
      · have hwf : wellFormed line = false := by
          unfold wellFormed; rw [hg]; simpa using hn
        rw [if_pos hg]
        simp only [ge_iff_le, hn, if_false]
        rw [ih]
        simp [List.filter_cons, hwf]
    · have hwf : wellFormed line = false := by
        unfold wellFormed
        have : (line.length ≠ 0 && !HasPrefix line (str "total")) = false := by
          simpa using hg
        rw [this]; rfl
      rw [if_neg hg, ih]
      simp [List.filter_cons, hwf]

theorem parseLsOutput_eq (lsout : GoString) :
    parseLsOutput lsout = some ((wellFormedLines lsout).map lineEntry) := by
  unfold parseLsOutput wellFormedLines
  rw [parseLoop_eq]; simp

/-- A line of a listing, parsed on its own, gives its record if it is
well-formed and nothing otherwise. -/
theorem parseLsOutput_line (lsout line : GoString) (h : line ∈ Split lsout (str "\n")) :
    parseLsOutput line = some (if wellFormed line then [lineEntry line] else []) := by
  have hsplit : Split line (str "\n") = [line] := by
    rw [str_newline] at h ⊢
    rw [Split_eq_linesOf] at h ⊢
    exact linesOf_of_not_mem _ _ (not_mem_of_mem_linesOf _ _ _ h)
  rw [parseLsOutput_eq]
  unfold wellFormedLines
  rw [hsplit]
  cases hw : wellFormed line <;> simp [List.filter_cons, hw]

theorem HasPrefix_byte (p : GoString) (c : UInt8) :
    HasPrefix p [c] = true ↔ p.head? = some c := by
  cases p with
  | nil =>
    rw [HasPrefix_nil]
    simp
  | cons x xs =>
    rw [HasPrefix_singleton]
    simp

theorem forall₂_map_of_forall {α β : Type} (R : α → β → Prop) (f : α → β) :
    ∀ (l : List α), (∀ a ∈ l, R a (f a)) → List.Forall₂ R l (l.map f) := by
  intro l
  induction l with
  | nil => intro _; exact List.Forall₂.nil
  | cons a rest ih =>
    intro h
    exact List.Forall₂.cons (h a (List.mem_cons_self _ _))
      (ih (fun b hb => h b (List.mem_cons_of_mem _ hb)))

theorem mem_wellFormedLines (lsout line : GoString) (h : line ∈ wellFormedLines lsout) :
    line ∈ Split lsout (str "\n") ∧ wellFormed line = true := by
  unfold wellFormedLines at h
  exact List.mem_filter.1 h

theorem columns_of_wellFormed (line : GoString) (h : wellFormed line = true) :
    8 ≤ (Fields line).length := by
  unfold wellFormed at h
  simp only [Bool.and_eq_true, decide_eq_true_eq] at h
  exact h.2

theorem wellFormed_total12 : wellFormed (str "total 12") = false := by decide

/-! ## Properties of the parser and of the client -/

/-- C1: for every listing text, `parseLsOutput` returns, without failing,
exactly one entry per well-formed line and nothing else, in listing order: the
result has as many entries as the text split on the newline has well-formed
lines, its i-th entry is the entry built from the i-th such line (the one
`parseLsOutput` gives for that line alone, the record `lineEntry` of the line),
a line of the text that is not well-formed gives no entry and no error, and
the empty text gives the empty sequence. -/
theorem parseLsOutput_one_entry_per_wellFormed_line (lsout : GoString) :
    ∃ es, parseLsOutput lsout = some es ∧
      es.length = (wellFormedLines lsout).length ∧
      List.Forall₂ (fun line e => parseLsOutput line = some [e]) (wellFormedLines lsout) es ∧
      es = (wellFormedLines lsout).map lineEntry ∧
      (∀ line ∈ Split lsout (str "\n"), wellFormed line = false →
        parseLsOutput line = some []) ∧
      parseLsOutput [] = some [] := by
  refine ⟨(wellFormedLines lsout).map lineEntry, parseLsOutput_eq lsout, by simp, ?_, rfl, ?_, ?_⟩
  · apply forall₂_map_of_forall
    intro line hline
    obtain ⟨hmem, hwf⟩ := mem_wellFormedLines lsout line hline
    rw [parseLsOutput_line lsout line hmem, hwf]
    rfl
  · intro line hmem hwf
    rw [parseLsOutput_line lsout line hmem, hwf]
    rfl
  · rw [parseLsOutput_eq]
    rfl

/-- C2: on the line `drwx------ 5 root root 4096 2024-01-01 10:00 root` (the
directory `root` owned by `root`) column 7 is `root` and begins at offset 45,
but the name of the entry is the text from offset 13, where `root` first occurs
in the line: `root root 4096 2024-01-01 10:00 root`, not the file name. -/
theorem parseLsOutput_name_from_owner_column :
    column (str "drwx------ 5 root root 4096 2024-01-01 10:00 root") 7 = str "root" ∧
    (str "drwx------ 5 root root 4096 2024-01-01 10:00 root").drop 45 = str "root" ∧
    Index (str "drwx------ 5 root root 4096 2024-01-01 10:00 root") (str "root") = 13 ∧
    parseLsOutput (str "drwx------ 5 root root 4096 2024-01-01 10:00 root") =
      some [⟨str "root root 4096 2024-01-01 10:00 root", str "drwx------", str "4096",
        str "2024-01-01 10:00:00", str "dir"⟩] := by
  decide

/-- C3: for every path `p`, `normalizePath p` is `/` followed by `p` when `p`
does not start with `/`, and `p` between single quotes when it does; `foo/bar`
gives `/foo/bar` and `/foo/bar` gives `'/foo/bar'`. -/
theorem normalizePath_prefixes_or_quotes (p : GoString) :
    normalizePath p =
      (if p.head? = some 0x2F then (0x27 :: p) ++ [0x27] else 0x2F :: p) ∧
    normalizePath (str "foo/bar") = str "/foo/bar" ∧
    normalizePath (str "/foo/bar") = str "'/foo/bar'" := by
  refine ⟨?_, by decide, by decide⟩
  have hs : str "/" = [0x2F] := by decide
  have hq : str "'" = [0x27] := by decide
  unfold normalizePath
  rw [hs, hq]
  by_cases h : p.head? = some 0x2F
  · have := (HasPrefix_byte p 0x2F).2 h
    simp [this, h]
  · have : HasPrefix p [0x2F] = false := by
      cases hp : HasPrefix p [0x2F] with
      | false => rfl
      | true => exact absurd ((HasPrefix_byte p 0x2F).1 hp) h
    simp [this, h]

/-- C4: when the session opens, `ExecOnly` returns `nil` whatever the remote
command does, also when `session.CombinedOutput` reports an error: in a world
where every command fails with `e`, `Exec` returns `e` but `ExecOnly`, and
`Delete`, `Move`, `Copy`, `Chmod` and `Mkdir` through it, return `nil`. -/
theorem ExecOnly_returns_nil_when_command_fails (run : GoString → GoString × GoError)
    (out : GoString) (e : String) (cmd p q perms code name : GoString) (r : Bool) :
    (ExecOnly (World.running run) cmd).1 = none ∧
    (Exec (World.failing out e) cmd).1.2 = some e ∧
    (ExecOnly (World.failing out e) cmd).1 = none ∧
    (Delete (World.failing out e) p).1 = none ∧
    (Move (World.failing out e) p q).1 = none ∧
    (Copy (World.failing out e) p q).1 = none ∧
    (Chmod (World.failing out e) p perms code r).1 = none ∧
    (Mkdir (World.failing out e) p name).1 = none := by
  have key : ∀ (w : GoString → GoString × GoError) (c : GoString),
      (ExecOnly (World.running w) c).1 = none := by
    intro w c
    simp only [ExecOnly, World.running]
    split <;> simp
  refine ⟨key _ _, ?_, key _ _, key _ _, key _ _, key _ _, ?_, key _ _⟩
  · simp [Exec, World.failing, World.running]
  · unfold Chmod
    split <;> exact key _ _

/-- C5: for every listing text, the entry built from a well-formed line has
kind `dir` if column 0 of the line begins with the byte `d`, and kind `file`
for any other leading byte. -/
theorem parseLsOutput_kind_from_first_byte (lsout : GoString) :
    ∃ es, parseLsOutput lsout = some es ∧
      List.Forall₂
        (fun line e =>
          e.type = if (column line 0).head? = some 0x64 then str "dir" else str "file")
        (wellFormedLines lsout) es := by
  refine ⟨_, parseLsOutput_eq lsout, ?_⟩
  apply forall₂_map_of_forall
  intro line _
  have hd : str "d" = [0x64] := by decide
  simp only [lineEntry, hd]
  by_cases h : (column line 0).head? = some 0x64
  · rw [(HasPrefix_byte _ _).2 h]; simp [h]
  · have : HasPrefix (column line 0) [0x64] = false := by
      cases hp : HasPrefix (column line 0) [0x64] with
      | false => rfl
      | true => exact absurd ((HasPrefix_byte _ _).1 hp) h
    rw [this]; simp [h]

/-- C6: the line `total 12` is never an entry, whatever its position: if the
lines of a listing text are `pre ++ post`, the text with the line `total 12`
inserted between `pre` and `post` parses to the same result, and `total 12` is
not among the lines an entry is built from. -/
theorem total_line_contributes_nothing (lsout : GoString) (pre post : List GoString)
    (h : Split lsout (str "\n") = pre ++ post) :
    parseLsOutput (Join (pre ++ str "total 12" :: post) (str "\n")) = parseLsOutput lsout ∧
    str "total 12" ∉ wellFormedLines lsout ∧
    str "total 12" ∉ wellFormedLines (Join (pre ++ str "total 12" :: post) (str "\n")) ∧
    parseLsOutput (str "total 12") = some [] := by
  have hnotwf : ∀ s, str "total 12" ∉ wellFormedLines s := by
    intro s hmem
    have := (mem_wellFormedLines s _ hmem).2
    rw [wellFormed_total12] at this
    exact Bool.noConfusion this
  refine ⟨?_, hnotwf _, hnotwf _, ?_⟩
  · have hfree : ∀ l ∈ pre ++ str "total 12" :: post, (0x0A : UInt8) ∉ l := by
      intro l hl
      rcases List.mem_append.1 hl with hp | hp
      · apply not_mem_of_mem_linesOf 0x0A lsout
        rw [← Split_eq_linesOf, ← str_newline, h]
        exact List.mem_append_left _ hp
      · rcases List.mem_cons.1 hp with hp | hp
        · rw [hp]; decide
        · apply not_mem_of_mem_linesOf 0x0A lsout
          rw [← Split_eq_linesOf, ← str_newline, h]
          exact List.mem_append_right _ hp
    have hsplit : Split (Join (pre ++ str "total 12" :: post) (str "\n")) (str "\n") =
        pre ++ str "total 12" :: post := by
      rw [str_newline, Split_eq_linesOf]
      exact linesOf_Join 0x0A _ (by simp) hfree
    rw [parseLsOutput_eq, parseLsOutput_eq]
    unfold wellFormedLines
    rw [hsplit, h]
    simp [List.filter_cons, wellFormed_total12]
  · rw [parseLsOutput_eq]
    decide

/-- Witness of C6: the line `total 12` put between the two lines of a listing. -/
theorem total_line_contributes_nothing_witness :
    Split (str "drwxr-xr-x 2 u g 4096 2024-01-01 10:00 docs\n-rw-r--r-- 1 u g 100 2024-01-01 10:00 a.txt")
        (str "\n") =
      [str "drwxr-xr-x 2 u g 4096 2024-01-01 10:00 docs"] ++
        [str "-rw-r--r-- 1 u g 100 2024-01-01 10:00 a.txt"] ∧
    parseLsOutput (Join ([str "drwxr-xr-x 2 u g 4096 2024-01-01 10:00 docs"] ++
        str "total 12" :: [str "-rw-r--r-- 1 u g 100 2024-01-01 10:00 a.txt"]) (str "\n")) =
      parseLsOutput
        (str "drwxr-xr-x 2 u g 4096 2024-01-01 10:00 docs\n-rw-r--r-- 1 u g 100 2024-01-01 10:00 a.txt") :=
  ⟨by decide,
    (total_line_contributes_nothing
      (str "drwxr-xr-x 2 u g 4096 2024-01-01 10:00 docs\n-rw-r--r-- 1 u g 100 2024-01-01 10:00 a.txt")
      [str "drwxr-xr-x 2 u g 4096 2024-01-01 10:00 docs"]
      [str "-rw-r--r-- 1 u g 100 2024-01-01 10:00 a.txt"] (by decide)).1⟩

theorem ExecOnly_requests (w : World) (h : w.newSession = none) (c : GoString) :
    (ExecOnly w c).2 = [Request.exec c] := by
  unfold ExecOnly
  simp only [h, ne_eq, not_true_eq_false, if_false]
  by_cases h1 : (w.combinedOutput c).2 = none
  · simp [h1]
  · simp [h1]

theorem ListDir_requests (w : World) (h : w.newSession = none) (p : GoString) :
    (ListDir w p).2 = [Request.exec (str "ls --time-style=long-iso -l " ++ normalizePath p)] := by
  unfold ListDir Exec
  simp only [h, ne_eq, not_true_eq_false, if_false]
  by_cases h1 :
      (w.combinedOutput (str "ls --time-style=long-iso -l " ++ normalizePath p)).2 = none
  · simp [h1]
  · simp [h1]

theorem ReadFile_requests (w : World) (h : w.sftpNewClient = none) (p : GoString) :
    (ReadFile w p).2 = [Request.sftpOpen p] := by
  unfold ReadFile
  simp only [h, ne_eq, not_true_eq_false, if_false]
  by_cases h1 : (w.sftpOpen p).2 = none
  · by_cases h2 : w.tempFile = none
    · by_cases h3 : w.ioCopy = none
      · by_cases h4 : w.ioutilReadFile = none
        · simp [h1, h2, h3, h4]
        · simp [h1, h2, h3, h4]
      · simp [h1, h2, h3]
    · simp [h1, h2]
  · simp [h1]

theorem Save_requests (w : World) (p data : GoString) (hc : w.sftpNewClient = none)
    (h1 : w.tempFile = none) (h2 : w.tmpWrite = none) (h3 : w.tmpClose = none)
    (h4 : w.osOpen = none) :
    (Save w p data).2 = [Request.sftpCreate p] ∨
    (Save w p data).2 = [Request.sftpCreate p, Request.sftpWrite p data] := by
  unfold Save
  simp only [hc, h1, h2, h3, h4, ne_eq, not_true_eq_false, if_false]
  by_cases h5 : w.sftpCreate p = none
  · right
    by_cases h6 : w.ioCopy = none
    · simp [h5, h6]
    · simp [h5, h6]
  · left
    simp [h5]

/-- C7: for every listing text, the entry built from a well-formed line has as
permission string column 0 of the line, as size column 4, and as modification
time column 5, a space, column 6 and `:00`. -/
theorem parseLsOutput_rights_size_date (lsout : GoString) :
    ∃ es, parseLsOutput lsout = some es ∧
      List.Forall₂
        (fun line e =>
          e.rights = column line 0 ∧ e.size = column line 4 ∧
          e.date = column line 5 ++ str " " ++ column line 6 ++ str ":00")
        (wellFormedLines lsout) es := by
  refine ⟨_, parseLsOutput_eq lsout, ?_⟩
  apply forall₂_map_of_forall
  intro line _
  exact ⟨rfl, rfl, rfl⟩

/-- C8: when the session opens, each structural operation sends exactly one
request, the command of the table built from the normalised paths; `Chmod`
sends `chmod code N(p)` or, when recursive, `chmod -r code N(p)`, whatever
`perms` is. -/
theorem structural_operations_issue_table_commands (w : World) (p q name perms code : GoString)
    (h : w.newSession = none) :
    (ListDir w p).2 = [Request.exec (str "ls --time-style=long-iso -l " ++ normalizePath p)] ∧
    (Move w p q).2 = [Request.exec (str "mv " ++ normalizePath p ++ str " " ++ normalizePath q)] ∧
    (Copy w p q).2 =
      [Request.exec (str "cp -r " ++ normalizePath p ++ str " " ++ normalizePath q)] ∧
    (Delete w p).2 = [Request.exec (str "rm -r " ++ normalizePath p)] ∧
    (Mkdir w p name).2 =
      [Request.exec (str "mkdir -p " ++ normalizePath p ++ str "/" ++ name)] ∧
    (Chmod w p perms code false).2 =
      [Request.exec (str "chmod " ++ code ++ str " " ++ normalizePath p)] ∧
    (Chmod w p perms code true).2 =
      [Request.exec (str "chmod -r " ++ code ++ str " " ++ normalizePath p)] := by
  have key := ExecOnly_requests w h
  refine ⟨ListDir_requests w h p, key _, key _, key _, key _, ?_, ?_⟩
  · simp only [Chmod]
    exact key _
  · simp only [Chmod]
    exact key _

/-- Witness of C8: the requests sent in a world where every call succeeds. -/
theorem structural_operations_issue_table_commands_witness :
    World.ok.newSession = none ∧
    (Delete World.ok (str "/tmp/x")).2 = [Request.exec (str "rm -r '/tmp/x'")] ∧
    (Mkdir World.ok (str "srv") (str "new")).2 = [Request.exec (str "mkdir -p /srv/new")] ∧
    (Chmod World.ok (str "/tmp/x") (str "rwxr-xr-x") (str "755") true).2 =
      [Request.exec (str "chmod -r 755 '/tmp/x'")] := by
  have h := structural_operations_issue_table_commands World.ok (str "/tmp/x") (str "/tmp/y")
    (str "new") (str "rwxr-xr-x") (str "755") rfl
  have h2 := structural_operations_issue_table_commands World.ok (str "srv") (str "/tmp/y")
    (str "new") (str "rwxr-xr-x") (str "755") rfl
  refine ⟨rfl, ?_, ?_, ?_⟩
  · rw [h.2.2.2.1]; decide
  · rw [h2.2.2.2.2.1]; decide
  · rw [h.2.2.2.2.2.2]; decide

/-- Counterexample to C9: `ReadFile` of `foo/bar` opens, and `Save` to
`foo/bar` creates, the remote file `foo/bar`, which is not the normalised path
`/foo/bar`. -/
theorem content_operations_do_not_normalize :
    (ReadFile World.ok (str "foo/bar")).2 = [Request.sftpOpen (str "foo/bar")] ∧
    (ReadFile World.ok (str "foo/bar")).2 ≠
      [Request.sftpOpen (normalizePath (str "foo/bar"))] ∧
    (Save World.ok (str "foo/bar") (str "x")).2 =
      [Request.sftpCreate (str "foo/bar"), Request.sftpWrite (str "foo/bar") (str "x")] ∧
    Request.sftpCreate (normalizePath (str "foo/bar")) ∉
      (Save World.ok (str "foo/bar") (str "x")).2 := by
  decide

/-- C9 as amended: the structural operations pass the normalised path to the
remote command, and the content operations use the path as given: when the
SFTP client opens, `ReadFile p` opens the remote file `p`, and when moreover
the local staging file is ready, `Save p data` creates the remote file `p`;
every SFTP request of the two names `p` itself. -/
theorem content_operations_use_path_as_given (w : World) (p q name perms code data : GoString)
    (r : Bool) (hs : w.newSession = none) (hc : w.sftpNewClient = none)
    (hl : w.tempFile = none ∧ w.tmpWrite = none ∧ w.tmpClose = none ∧ w.osOpen = none) :
    (ReadFile w p).2 = [Request.sftpOpen p] ∧
    (Save w p data).2.head? = some (Request.sftpCreate p) ∧
    (∀ x ∈ (Save w p data).2, x = Request.sftpCreate p ∨ x = Request.sftpWrite p data) ∧
    (ListDir w p).2 = [Request.exec (str "ls --time-style=long-iso -l " ++ normalizePath p)] ∧
    (Move w p q).2 = [Request.exec (str "mv " ++ normalizePath p ++ str " " ++ normalizePath q)] ∧
    (Copy w p q).2 =
      [Request.exec (str "cp -r " ++ normalizePath p ++ str " " ++ normalizePath q)] ∧
    (Delete w p).2 = [Request.exec (str "rm -r " ++ normalizePath p)] ∧
    (Mkdir w p name).2 =
      [Request.exec (str "mkdir -p " ++ normalizePath p ++ str "/" ++ name)] ∧
    (Chmod w p perms code r).2 =
      [Request.exec (str (if r then "chmod -r " else "chmod ") ++ code ++ str " " ++
        normalizePath p)] := by
  have key := ExecOnly_requests w hs
  obtain ⟨h1, h2, h3, h4⟩ := hl
  have hsave := Save_requests w p data hc h1 h2 h3 h4
  refine ⟨ReadFile_requests w hc p, ?_, ?_, ListDir_requests w hs p, key _, key _, key _,
    key _, ?_⟩
  · rcases hsave with e | e <;> rw [e] <;> rfl
  · intro x hx
    rcases hsave with e | e <;> rw [e] at hx <;> simp at hx <;> tauto
  · cases r
    · simp only [Chmod]; exact key _
    · simp only [Chmod]; exact key _

/-- Witness of C9 as amended, in a world where every call succeeds. -/
theorem content_operations_use_path_as_given_witness :
    World.ok.newSession = none ∧ World.ok.sftpNewClient = none ∧
    (ReadFile World.ok (str "/etc/hosts")).2 = [Request.sftpOpen (str "/etc/hosts")] ∧
    (Save World.ok (str "/etc/hosts") (str "x")).2.head? =
      some (Request.sftpCreate (str "/etc/hosts")) :=
  have h := content_operations_use_path_as_given World.ok (str "/etc/hosts") (str "/tmp/y")
    (str "new") (str "rw-r--r--") (str "644") (str "x") false rfl rfl ⟨rfl, rfl, rfl, rfl⟩
  ⟨rfl, rfl, h.1, h.2.1⟩

/-- C10: for every line with at least 8 columns, column 7 occurs in the line,
so `strings.Index` finds it at some `i` with `0 ≤ i ≤ len(line)`, the slice
`line[i:]` is in range, `i` is the first position where the text of column 7
starts, and `line[i:]` is a suffix of the line that begins with that text; and
for every listing text `parseLsOutput` returns a result, in which the name of
the entry of each well-formed line is that slice of the line. -/
theorem name_is_line_from_first_occurrence (lsout line : GoString)
    (h : 8 ≤ (Fields line).length) :
    (∃ i : Nat, column line 7 <:+: line ∧ Index line (column line 7) = (i : Int) ∧
      i ≤ line.length ∧ sliceFrom line (Index line (column line 7)) = some (line.drop i) ∧
      (∀ j, j < i → ¬ column line 7 <+: line.drop j) ∧
      column line 7 <+: line.drop i ∧ line.drop i <:+ line) ∧
    ∃ es, parseLsOutput lsout = some es ∧
      List.Forall₂
        (fun l e =>
          e.name = l.drop (Index l (column l 7)).toNat ∧
          sliceFrom l (Index l (column l 7)) = some e.name ∧
          e.name <:+ l ∧ column l 7 <+: e.name)
        (wellFormedLines lsout) es := by
  have line_facts : ∀ l : GoString, 8 ≤ (Fields l).length →
      ∃ i : Nat, column l 7 <:+: l ∧ Index l (column l 7) = (i : Int) ∧
        i ≤ l.length ∧ sliceFrom l (Index l (column l 7)) = some (l.drop i) ∧
        (∀ j, j < i → ¬ column l 7 <+: l.drop j) ∧
        column l 7 <+: l.drop i ∧ l.drop i <:+ l := by
    intro l hl
    have hinf := column_within l 7 (by omega)
    obtain ⟨i, hi, hle, hp, hmin⟩ := Index_finds l (column l 7) hinf
    refine ⟨i, hinf, hi, hle, ?_, ?_, (HasPrefix_iff _ _).1 hp, List.drop_suffix _ _⟩
    · rw [hi]; exact sliceFrom_natCast l i hle
    · intro j hj hpre
      have := hmin j hj
      rw [(HasPrefix_iff _ _).2 hpre] at this
      exact Bool.noConfusion this
  refine ⟨line_facts line h, _, parseLsOutput_eq lsout, ?_⟩
  apply forall₂_map_of_forall
  intro l hl
  obtain ⟨i, _, hi, _, hs, _, hpre, hsuf⟩ :=
    line_facts l (columns_of_wellFormed l (mem_wellFormedLines lsout l hl).2)
  have hname : (lineEntry l).name = l.drop i := by
    simp only [lineEntry, hi, Int.toNat_ofNat]
  refine ⟨rfl, ?_, ?_, ?_⟩
  · rw [hname]; exact hs
  · rw [hname]; exact hsuf
  · rw [hname]; exact hpre

/-- Witness of C10: the line of the file `my file.txt`. -/
theorem name_is_line_from_first_occurrence_witness :
    8 ≤ (Fields (str "-rw-r--r--  1 u g  100 2024-01-01 10:00 my file.txt")).length ∧
    ∃ es, parseLsOutput (str "-rw-r--r--  1 u g  100 2024-01-01 10:00 my file.txt") = some es ∧
      List.Forall₂
        (fun l e =>
          e.name = l.drop (Index l (column l 7)).toNat ∧
          sliceFrom l (Index l (column l 7)) = some e.name ∧
          e.name <:+ l ∧ column l 7 <+: e.name)
        (wellFormedLines (str "-rw-r--r--  1 u g  100 2024-01-01 10:00 my file.txt")) es :=
  ⟨by decide,
    (name_is_line_from_first_occurrence
      (str "-rw-r--r--  1 u g  100 2024-01-01 10:00 my file.txt")
      (str "-rw-r--r--  1 u g  100 2024-01-01 10:00 my file.txt") (by decide)).2⟩

end Gofe
